import Mathlib

/-!
Shallow embedding of the ProbableBook repository (`discovery.py` and
`probable_orderbook.py`), together with theorems settling the claims of the
natural-language specification against this embedding.

Modelling conventions:
* Python `Decimal` values are modelled as exact rationals (`ℚ`).  The source
  constructs every decimal from a string (exact) and the quantities involved
  in the claims stay well below the configured 10-digit precision, so decimal
  arithmetic on them is exact.
* A JSON order-book entry (a dict with `price` and `size` fields) is a
  `RawEntry`; each field is either missing, present-but-not-a-decimal, or a
  decimal value.  `Decimal(str(o['price']))` raising (missing key or invalid
  literal) corresponds to the non-`num` constructors.
* A fetched order book (a JSON object with optional `bids`/`asks` arrays) is
  a `Book`; the Python "falsy or key absent" test collapses to the `Option`
  being `none`.  The empty mapping `{}` is `emptyBook`.
* Network effects (HTTP responses, transport exceptions) are supplied by
  explicit oracles: a per-attempt outcome function for the order-book fetch,
  and a list of page results for discovery.
-/

/-- Value of a JSON field as seen by `Decimal(str(field))`: the field can be
missing, present but not parseable as a decimal number, or a decimal. -/
inductive JField where
  | missing
  | invalid
  | num (q : ℚ)
deriving DecidableEq

/-- Raw order-book entry: a JSON object carrying `price` and `size` fields. -/
structure RawEntry where
  price : JField
  size : JField
deriving DecidableEq

/-- Raw order book: a JSON object with optional `bids` and `asks` arrays.
`none` covers both "key absent" and the falsy empty mapping. -/
structure Book where
  bids : Option (List RawEntry)
  asks : Option (List RawEntry)
deriving DecidableEq

/-- The empty mapping `{}` returned by `fetch_book` on failure. -/
def emptyBook : Book := ⟨none, none⟩

/-- Parse one entry the way the extraction loop does:
`(Decimal(str(o['price'])), Decimal(str(o['size'])), o)`; any failure makes
the whole extraction fail. -/
def parseEntry (o : RawEntry) : Option (ℚ × ℚ × RawEntry) :=
  match o.price, o.size with
  | JField.num p, JField.num s => some (p, s, o)
  | _, _ => none

/-- Parse the whole entry list in order; the first failure aborts (the Python
`for` loop raises out of the surrounding `try`). -/
def parseOrders : List RawEntry → Option (List (ℚ × ℚ × RawEntry))
  | [] => some []
  | o :: rest =>
    match parseEntry o, parseOrders rest with
    | some x, some xs => some (x :: xs)
    | _, _ => none

/-- Comparison used by `parsed_orders.sort(key=lambda x: x[0])`: ascending by
price.  Python's sort is stable, and a stable insertion sort with this
non-strict comparison computes the same list. -/
def askLe (x y : ℚ × ℚ × RawEntry) : Prop := x.1 ≤ y.1

instance (x y : ℚ × ℚ × RawEntry) : Decidable (askLe x y) :=
  inferInstanceAs (Decidable (x.1 ≤ y.1))

instance : IsTotal (ℚ × ℚ × RawEntry) askLe := ⟨fun x y => le_total x.1 y.1⟩

instance : IsTrans (ℚ × ℚ × RawEntry) askLe := ⟨fun _ _ _ h1 h2 => le_trans h1 h2⟩

/-- Comparison used by `parsed_orders.sort(key=lambda x: x[0], reverse=True)`:
descending by price, again as a stable sort. -/
def bidGe (x y : ℚ × ℚ × RawEntry) : Prop := y.1 ≤ x.1

instance (x y : ℚ × ℚ × RawEntry) : Decidable (bidGe x y) :=
  inferInstanceAs (Decidable (y.1 ≤ x.1))

/-- Embedding of `get_best_ask_details` (probable_orderbook.py:154-192):
guard on missing/empty `asks`, parse every entry, sort ascending by price,
take the head's price, filter the sorted list to the entries tied at that
price, and return (price, summed size, raw entries).  The `[]` branch of the
final match is unreachable (the sort of a non-empty list is non-empty) and
mirrors the `except` returning `None`. -/
def get_best_ask_details (book : Book) : Option (ℚ × ℚ × List RawEntry) :=
  match book.asks with
  | none => none
  | some orders =>
    if orders.isEmpty then none
    else
      match parseOrders orders with
      | none => none
      | some parsed =>
        if parsed.isEmpty then none
        else
          match List.insertionSort askLe parsed with
          | [] => none
          | best :: rest =>
            some (best.1,
              (((best :: rest).filter (fun x => x.1 == best.1)).map (fun x => x.2.1)).sum,
              ((best :: rest).filter (fun x => x.1 == best.1)).map (fun x => x.2.2))

/-- Embedding of `get_best_bid_details` (probable_orderbook.py:220-257): same
shape as the ask side but sorted descending. -/
def get_best_bid_details (book : Book) : Option (ℚ × ℚ × List RawEntry) :=
  match book.bids with
  | none => none
  | some orders =>
    if orders.isEmpty then none
    else
      match parseOrders orders with
      | none => none
      | some parsed =>
        if parsed.isEmpty then none
        else
          match List.insertionSort bidGe parsed with
          | [] => none
          | best :: rest =>
            some (best.1,
              (((best :: rest).filter (fun x => x.1 == best.1)).map (fun x => x.2.1)).sum,
              ((best :: rest).filter (fun x => x.1 == best.1)).map (fun x => x.2.2))

/-- Claim C6: for every order book that lacks the requested side's key or
whose side entry list is empty, best-level extraction (both best-bid and
best-ask) returns absent (no level), never a zero price or zero size. -/
theorem best_level_absent_on_empty (book : Book) :
    ((book.asks = none ∨ book.asks = some []) → get_best_ask_details book = none) ∧
    ((book.bids = none ∨ book.bids = some []) → get_best_bid_details book = none) := by
  constructor
  · rintro (h | h) <;> simp [get_best_ask_details, h]
  · rintro (h | h) <;> simp [get_best_bid_details, h]

/-- Witness for C6: concrete evaluation on the empty mapping (missing sides)
and on a book with explicitly empty sides. -/
theorem best_level_absent_on_empty_witness :
    get_best_ask_details emptyBook = none ∧
    get_best_bid_details emptyBook = none ∧
    get_best_ask_details ⟨some [], some []⟩ = none ∧
    get_best_bid_details ⟨some [], some []⟩ = none :=
  ⟨(best_level_absent_on_empty emptyBook).1 (Or.inl rfl),
   (best_level_absent_on_empty emptyBook).2 (Or.inl rfl),
   (best_level_absent_on_empty ⟨some [], some []⟩).1 (Or.inr rfl),
   (best_level_absent_on_empty ⟨some [], some []⟩).2 (Or.inr rfl)⟩

/-- Parsing preserves length (each source entry yields exactly one parsed
triple when the whole parse succeeds). -/
theorem parseOrders_length {l : List RawEntry} {ps : List (ℚ × ℚ × RawEntry)}
    (h : parseOrders l = some ps) : ps.length = l.length := by
  induction l generalizing ps with
  | nil => simp [parseOrders] at h; simp [← h]
  | cons o rest ih =>
    simp only [parseOrders] at h
    cases hpe : parseEntry o with
    | none => rw [hpe] at h; simp at h
    | some x =>
      cases hpr : parseOrders rest with
      | none => rw [hpe, hpr] at h; simp at h
      | some xs =>
        rw [hpe, hpr] at h
        simp only [Option.some.injEq] at h
        simp [← h, List.length_cons, ih hpr]

/-- Inserting a price-minimal element puts it at the front. -/
theorem orderedInsert_eq_cons_of_min {a : ℚ × ℚ × RawEntry}
    {l : List (ℚ × ℚ × RawEntry)} (h : ∀ x ∈ l, a.1 ≤ x.1) :
    List.orderedInsert askLe a l = a :: l := by
  cases l with
  | nil => rfl
  | cons b t => exact List.orderedInsert_of_le askLe t (h b (List.mem_cons_self b t))

/-- Inserting an element that fails the filter predicate does not change the
filtered list. -/
theorem filter_orderedInsert_of_neg {p : ℚ × ℚ × RawEntry → Bool}
    {a : ℚ × ℚ × RawEntry} (ha : p a = false) :
    ∀ l : List (ℚ × ℚ × RawEntry),
      (List.orderedInsert askLe a l).filter p = l.filter p := by
  intro l
  induction l with
  | nil => simp [List.orderedInsert, List.filter, ha]
  | cons b t ih =>
    by_cases hab : askLe a b
    · simp [List.orderedInsert, hab, List.filter, ha]
    · simp only [List.orderedInsert, hab, if_false]
      cases hb : p b <;> simp [List.filter_cons, hb, ih]

/-- Stability at the minimum: the sorted list's sub-list of entries tied at a
price that is minimal over the whole list equals the corresponding sub-list
of the original (unsorted) list, in original order. -/
theorem filter_insertionSort_min (bp : ℚ) :
    ∀ l : List (ℚ × ℚ × RawEntry), (∀ x ∈ l, bp ≤ x.1) →
      (List.insertionSort askLe l).filter (fun x => x.1 == bp) =
        l.filter (fun x => x.1 == bp) := by
  intro l
  induction l with
  | nil => intro; rfl
  | cons a t ih =>
    intro hmin
    have htail : ∀ x ∈ t, bp ≤ x.1 := fun x hx => hmin x (List.mem_cons_of_mem a hx)
    simp only [List.insertionSort]
    cases hpa : (fun x : ℚ × ℚ × RawEntry => x.1 == bp) a with
    | true =>
      have ha1 : a.1 = bp := by simpa using hpa
      have hfront : ∀ x ∈ List.insertionSort askLe t, a.1 ≤ x.1 := by
        intro x hx
        have : x ∈ t := (List.mem_insertionSort askLe).1 hx
        exact ha1 ▸ htail x this
      rw [orderedInsert_eq_cons_of_min hfront]
      simp only [List.filter_cons, hpa, ih htail]
    | false =>
      rw [filter_orderedInsert_of_neg hpa]
      simp [List.filter_cons, hpa, ih htail]

/-- Full characterization of `get_best_ask_details` on a well-formed book:
the returned price is the minimum parsed price, the returned size is the sum
of sizes over exactly the entries tied at that price, and the returned raw
entries are exactly those tied entries in original order. -/
theorem best_ask_spec {book : Book} {orders : List RawEntry}
    {ps : List (ℚ × ℚ × RawEntry)}
    (h1 : book.asks = some orders) (h2 : orders ≠ [])
    (h3 : parseOrders orders = some ps) :
    ∃ bp : ℚ,
      (∃ x ∈ ps, x.1 = bp) ∧ (∀ x ∈ ps, bp ≤ x.1) ∧
      get_best_ask_details book = some (bp,
        ((ps.filter (fun x => x.1 == bp)).map (fun x => x.2.1)).sum,
        (ps.filter (fun x => x.1 == bp)).map (fun x => x.2.2)) := by
  have hoe : orders.isEmpty = false := by
    cases orders with
    | nil => exact absurd rfl h2
    | cons a t => rfl
  have hpsne : ps ≠ [] := by
    intro hh
    have := parseOrders_length h3
    rw [hh] at this
    cases orders with
    | nil => exact h2 rfl
    | cons a t => simp at this
  have hperm : List.Perm (List.insertionSort askLe ps) ps := List.perm_insertionSort askLe ps
  have hsne : List.insertionSort askLe ps ≠ [] := by
    intro hh
    have := hperm.length_eq
    rw [hh] at this
    cases ps with
    | nil => exact hpsne rfl
    | cons a t => simp at this
  obtain ⟨best, rest, hsort⟩ : ∃ b r, List.insertionSort askLe ps = b :: r := by
    cases hs : List.insertionSort askLe ps with
    | nil => exact absurd hs hsne
    | cons b r => exact ⟨b, r, rfl⟩
  have hsorted : List.Sorted askLe (List.insertionSort askLe ps) :=
    List.sorted_insertionSort askLe ps
  have hmin : ∀ x ∈ ps, best.1 ≤ x.1 := by
    intro x hx
    have hx' : x ∈ best :: rest := by
      rw [← hsort]; exact hperm.symm.subset hx
    rcases List.mem_cons.1 hx' with rfl | hx''
    · exact le_refl _
    · rw [hsort] at hsorted
      exact (List.sorted_cons.1 hsorted).1 x hx''
  have hbestmem : best ∈ ps := by
    have : best ∈ best :: rest := List.mem_cons_self best rest
    rw [← hsort] at this
    exact hperm.subset this
  have hstable : (List.insertionSort askLe ps).filter (fun x => x.1 == best.1) =
      ps.filter (fun x => x.1 == best.1) := filter_insertionSort_min best.1 ps hmin
  refine ⟨best.1, ⟨best, hbestmem, rfl⟩, hmin, ?_⟩
  have hpse : ps.isEmpty = false := by
    cases ps with
    | nil => exact absurd rfl hpsne
    | cons a t => rfl
  rw [hsort] at hstable
  simp only [get_best_ask_details, h1, hoe, h3, hpse, hsort, Bool.false_eq_true,
    if_false, hstable]

/-- First raw ask entry of the spec's worked example: price 0.40, size 10. -/
def C1e1 : RawEntry := ⟨JField.num 0.40, JField.num 10⟩

/-- Second raw ask entry of the spec's worked example: price 0.40, size 5. -/
def C1e2 : RawEntry := ⟨JField.num 0.40, JField.num 5⟩

/-- Third raw ask entry of the spec's worked example: price 0.55, size 3. -/
def C1e3 : RawEntry := ⟨JField.num 0.55, JField.num 3⟩

/-- Order book of the spec's worked example. -/
def C1book : Book := ⟨none, some [C1e1, C1e2, C1e3]⟩

/-- Parsed triples of the worked example's ask list. -/
def C1ps : List (ℚ × ℚ × RawEntry) :=
  [(0.40, 10, C1e1), (0.40, 5, C1e2), (0.55, 3, C1e3)]

/-- Claim C1: for every order book whose `asks` list is non-empty and every
entry parses as decimal price and size, best-ask extraction returns the
minimum price, the sum of `size` over exactly those entries whose price
equals that minimum (exact decimal equality), and the list of those tied raw
entries (in original order). -/
theorem best_ask_min_tie_aggregation {book : Book} {orders : List RawEntry}
    {ps : List (ℚ × ℚ × RawEntry)}
    (h1 : book.asks = some orders) (h2 : orders ≠ [])
    (h3 : parseOrders orders = some ps) :
    ∃ bp : ℚ,
      (∃ x ∈ ps, x.1 = bp) ∧ (∀ x ∈ ps, bp ≤ x.1) ∧
      get_best_ask_details book = some (bp,
        ((ps.filter (fun x => x.1 == bp)).map (fun x => x.2.1)).sum,
        (ps.filter (fun x => x.1 == bp)).map (fun x => x.2.2)) :=
  best_ask_spec h1 h2 h3

/-- Witness for C1, at the spec's example: asks at prices
[0.40, 0.40, 0.55] with sizes [10, 5, 3] yield best price 0.40, aggregated
size 15 and the two tied raw entries. -/
theorem best_ask_min_tie_aggregation_witness :
    (∃ bp : ℚ,
      (∃ x ∈ C1ps, x.1 = bp) ∧ (∀ x ∈ C1ps, bp ≤ x.1) ∧
      get_best_ask_details C1book = some (bp,
        ((C1ps.filter (fun x => x.1 == bp)).map (fun x => x.2.1)).sum,
        (C1ps.filter (fun x => x.1 == bp)).map (fun x => x.2.2))) ∧
    get_best_ask_details C1book = some (0.40, 15, [C1e1, C1e2]) ∧
    [C1e1, C1e2].length = 2 :=
  ⟨best_ask_min_tie_aggregation
     (show C1book.asks = some [C1e1, C1e2, C1e3] from rfl) (by simp)
     (by simp [parseOrders, parseEntry, C1e1, C1e2, C1e3, C1ps]),
   by norm_num [get_best_ask_details, C1book, parseOrders, parseEntry, C1e1, C1e2,
     C1e3, List.insertionSort, List.orderedInsert, askLe], rfl⟩

/-- Structure of a successful parse of a cons cell. -/
theorem parseOrders_cons {o : RawEntry} {rest : List RawEntry}
    {ps : List (ℚ × ℚ × RawEntry)} (h : parseOrders (o :: rest) = some ps) :
    ∃ x xs, parseEntry o = some x ∧ parseOrders rest = some xs ∧ ps = x :: xs := by
  simp only [parseOrders] at h
  cases hpe : parseEntry o with
  | none => rw [hpe] at h; simp at h
  | some x =>
    cases hpr : parseOrders rest with
    | none => rw [hpe, hpr] at h; simp at h
    | some xs =>
      rw [hpe, hpr] at h
      exact ⟨x, xs, rfl, rfl, by simpa using h.symm⟩

/-- Permuting the raw entry list permutes the parsed triples (and preserves
parse success, since success is just "every entry parses"). -/
theorem parseOrders_perm {l1 l2 : List RawEntry} (hp : List.Perm l1 l2) :
    ∀ {ps1 : List (ℚ × ℚ × RawEntry)}, parseOrders l1 = some ps1 →
      ∃ ps2, parseOrders l2 = some ps2 ∧ List.Perm ps1 ps2 := by
  induction hp with
  | nil =>
    intro ps1 h
    simp only [parseOrders, Option.some.injEq] at h
    exact ⟨[], rfl, by simp [← h]⟩
  | cons x _ ih =>
    intro ps1 h
    obtain ⟨y, ys, hy, hys, rfl⟩ := parseOrders_cons h
    obtain ⟨zs, hzs, hpz⟩ := ih hys
    exact ⟨y :: zs, by simp [parseOrders, hy, hzs], hpz.cons y⟩
  | swap x y l =>
    intro ps1 h
    obtain ⟨a, as, ha, has, rfl⟩ := parseOrders_cons h
    obtain ⟨b, bs, hb, hbs, rfl⟩ := parseOrders_cons has
    exact ⟨b :: a :: bs, by simp [parseOrders, ha, hb, hbs], List.Perm.swap b a bs⟩
  | trans _ _ ih1 ih2 =>
    intro ps1 h
    obtain ⟨ps2, hps2, hp12⟩ := ih1 h
    obtain ⟨ps3, hps3, hp23⟩ := ih2 hps2
    exact ⟨ps3, hps3, hp12.trans hp23⟩

/-- Claim C10: for every well-formed order book and every permutation of its
`asks` entry list, best-ask extraction returns the same best price and the
same aggregated size (the raw-entry component may be reordered, but the
price and size components are invariant). -/
theorem best_ask_perm_invariant {b1 b2 : Book} {l1 l2 : List RawEntry}
    {ps1 : List (ℚ × ℚ × RawEntry)}
    (h1 : b1.asks = some l1) (h2 : b2.asks = some l2)
    (hperm : List.Perm l1 l2) (hne : l1 ≠ [])
    (hps : parseOrders l1 = some ps1) :
    (get_best_ask_details b1).map (fun t => (t.1, t.2.1)) =
      (get_best_ask_details b2).map (fun t => (t.1, t.2.1)) := by
  obtain ⟨ps2, hps2, hpp⟩ := parseOrders_perm hperm hps
  have hne2 : l2 ≠ [] := by
    intro hh
    have hlen := hperm.length_eq
    rw [hh] at hlen
    exact hne (List.length_eq_zero.1 hlen)
  obtain ⟨bp1, ⟨x1, hx1, hx1e⟩, hmin1, heq1⟩ := best_ask_spec h1 hne hps
  obtain ⟨bp2, ⟨x2, hx2, hx2e⟩, hmin2, heq2⟩ := best_ask_spec h2 hne2 hps2
  have hbp : bp1 = bp2 := by
    have hle1 : bp2 ≤ bp1 := hx1e ▸ hmin2 x1 (hpp.subset hx1)
    have hle2 : bp1 ≤ bp2 := hx2e ▸ hmin1 x2 (hpp.symm.subset hx2)
    exact le_antisymm hle2 hle1
  subst hbp
  have hfilter : List.Perm (ps1.filter (fun x => x.1 == bp1))
      (ps2.filter (fun x => x.1 == bp1)) := hpp.filter _
  have hsum : ((ps1.filter (fun x => x.1 == bp1)).map (fun x => x.2.1)).sum =
      ((ps2.filter (fun x => x.1 == bp1)).map (fun x => x.2.1)).sum :=
    (hfilter.map _).sum_eq
  rw [heq1, heq2]
  simp [hsum]

/-- Witness for C10: a two-entry ask list and its reversal give the same
best price and aggregated size. -/
theorem best_ask_perm_invariant_witness :
    (get_best_ask_details ⟨none, some [C1e1, C1e3]⟩).map (fun t => (t.1, t.2.1)) =
      (get_best_ask_details ⟨none, some [C1e3, C1e1]⟩).map (fun t => (t.1, t.2.1)) :=
  best_ask_perm_invariant rfl rfl (List.Perm.swap C1e3 C1e1 []) (by simp)
    (show parseOrders [C1e1, C1e3] = some [(0.40, 10, C1e1), (0.55, 3, C1e3)] by
      simp [parseOrders, parseEntry, C1e1, C1e3])

/-- Outcome of one fetch attempt as seen by `fetch_book`
(probable_orderbook.py:125-152): either an HTTP response with a status code
and (for 200) a parsed JSON body, or a transport exception raised inside the
`try` block. -/
inductive FetchOutcome where
  | response (status : Nat) (body : Book)
  | exc
deriving DecidableEq

/-- An attempt outcome on which the loop continues to the next attempt:
HTTP 429 or a transport exception.  (Any other status returns right away.) -/
def retryable : FetchOutcome → Bool
  | .response s _ => s == 429
  | .exc => true

/-- Body of the `for attempt in range(max_retries)` loop of `fetch_book`,
driven by an oracle giving each attempt's outcome.  Returns the fetched book
together with the number of attempts consumed: status 200 returns the body;
status 429 and exceptions sleep and go to the next attempt; any other status
returns the empty mapping at once; falling off the loop returns the empty
mapping. -/
def fetchAux (oracle : Nat → FetchOutcome) (attempt : Nat) : Nat → Book × Nat
  | 0 => (emptyBook, attempt)
  | remaining + 1 =>
    match oracle attempt with
    | .response status body =>
      if status == 200 then (body, attempt + 1)
      else if status == 429 then fetchAux oracle (attempt + 1) remaining
      else (emptyBook, attempt + 1)
    | .exc => fetchAux oracle (attempt + 1) remaining

/-- Embedding of `fetch_book` with its default `max_retries=3`: the book the
call returns. -/
def fetch_book (oracle : Nat → FetchOutcome) : Book :=
  (fetchAux oracle 0 3).1

/-- Number of attempts `fetch_book` consumes before returning. -/
def fetch_book_attempts (oracle : Nat → FetchOutcome) : Nat :=
  (fetchAux oracle 0 3).2

/-- A non-empty book served with status 200 from attempt 1 onwards while
attempt 0 gets a 500: the claim predicts a retry and this body as result. -/
def C2good : Book := ⟨none, some [⟨JField.num 1, JField.num 1⟩]⟩

/-- Oracle for the C2 counterexample: attempt 0 answers HTTP 500, every
later attempt answers HTTP 200 with `C2good`. -/
def C2oracle : Nat → FetchOutcome := fun n =>
  if n == 0 then .response 500 C2good else .response 200 C2good

/-- Counterexample to claim C2 as stated: on a 500 response at the first
attempt, `fetch_book` returns the empty mapping after a single attempt even
though two attempts remain and the very next attempt would have answered 200
with a non-empty book — it does not back off and retry on statuses other
than 200/429, and it returns the empty mapping without exhausting all
attempts. -/
theorem fetch_book_no_retry_on_other_status :
    fetch_book C2oracle = emptyBook ∧
    fetch_book_attempts C2oracle = 1 ∧
    (1 : Nat) < 3 ∧
    C2oracle 1 = .response 200 C2good ∧
    C2good ≠ emptyBook := by
  refine ⟨rfl, rfl, by decide, rfl, ?_⟩
  intro h
  simp [C2good, emptyBook] at h

/-- All-retryable prefixes walk the loop to exhaustion. -/
theorem fetchAux_all_retryable (oracle : Nat → FetchOutcome) :
    ∀ remaining attempt,
      (∀ j, attempt ≤ j → j < attempt + remaining → retryable (oracle j) = true) →
      fetchAux oracle attempt remaining = (emptyBook, attempt + remaining) := by
  intro remaining
  induction remaining with
  | zero => intro attempt _; rfl
  | succ r ih =>
    intro attempt h
    have h0 : retryable (oracle attempt) = true :=
      h attempt (le_refl _) (by omega)
    have hrec : fetchAux oracle (attempt + 1) r = (emptyBook, attempt + 1 + r) :=
      ih (attempt + 1) (fun j hj1 hj2 => h j (by omega) (by omega))
    cases ho : oracle attempt with
    | response s b =>
      rw [ho] at h0
      have hs : s == 429 := by simpa [retryable] using h0
      have hs429 : s = 429 := by simpa using hs
      simp only [fetchAux, ho, hs429]
      rw [show ((429 : Nat) == 200) = false from rfl]
      simp only [Bool.false_eq_true, if_false]
      rw [show ((429 : Nat) == 429) = true from rfl]
      simp only [if_true, hrec]
      congr 1
      omega
    | exc =>
      simp only [fetchAux, ho, hrec]
      congr 1
      omega

/-- The first non-retryable attempt decides the result. -/
theorem fetchAux_first_decisive (oracle : Nat → FetchOutcome) :
    ∀ remaining attempt i, attempt ≤ i → i < attempt + remaining →
      (∀ j, attempt ≤ j → j < i → retryable (oracle j) = true) →
      ∀ s b, oracle i = .response s b → s ≠ 429 →
        fetchAux oracle attempt remaining =
          (if s = 200 then b else emptyBook, i + 1) := by
  intro remaining
  induction remaining with
  | zero => intro attempt i h1 h2; omega
  | succ r ih =>
    intro attempt i h1 h2 hpre s b hi hs429
    by_cases hia : i = attempt
    · subst hia
      simp only [fetchAux, hi]
      by_cases hs : s = 200
      · simp [hs]
      · have h200 : (s == 200) = false := by simp [hs]
        have h429 : (s == 429) = false := by simp [hs429]
        simp [h200, h429, hs]
    · have hlt : attempt < i := lt_of_le_of_ne h1 (Ne.symm hia)
      have h0 : retryable (oracle attempt) = true :=
        hpre attempt (le_refl _) hlt
      have hrec : fetchAux oracle (attempt + 1) r =
          (if s = 200 then b else emptyBook, i + 1) :=
        ih (attempt + 1) i (by omega) (by omega)
          (fun j hj1 hj2 => hpre j (by omega) hj2) s b hi hs429
      cases ho : oracle attempt with
      | response st bb =>
        rw [ho] at h0
        have hst : st = 429 := by simpa [retryable] using h0
        simp only [fetchAux, ho, hst]
        rw [show ((429 : Nat) == 200) = false from rfl]
        simp only [Bool.false_eq_true, if_false]
        rw [show ((429 : Nat) == 429) = true from rfl]
        simp only [if_true, hrec]
      | exc =>
        simp only [fetchAux, ho, hrec]

/-- Claim C2 as amended: `fetch_book` never raises (it is a total function
of the attempt outcomes) and makes up to 3 attempts; HTTP 429 and transport
exceptions back off and retry; an HTTP 200 returns the parsed body; any
other status returns the empty mapping immediately, without using the
remaining attempts; and after exhausting all 3 attempts the result is the
empty mapping. -/
theorem fetch_book_retry_characterization (oracle : Nat → FetchOutcome) :
    ((∀ j, j < 3 → retryable (oracle j) = true) →
      fetch_book oracle = emptyBook ∧ fetch_book_attempts oracle = 3) ∧
    (∀ i, i < 3 → (∀ j, j < i → retryable (oracle j) = true) →
      ∀ s b, oracle i = .response s b → s ≠ 429 →
        ((s = 200 → fetch_book oracle = b ∧ fetch_book_attempts oracle = i + 1) ∧
         (s ≠ 200 → fetch_book oracle = emptyBook ∧
           fetch_book_attempts oracle = i + 1))) := by
  constructor
  · intro h
    have := fetchAux_all_retryable oracle 3 0 (fun j hj1 hj2 => h j (by omega))
    constructor
    · simp [fetch_book, this]
    · simp [fetch_book_attempts, this]
  · intro i hi hpre s b ho hs429
    have := fetchAux_first_decisive oracle 3 0 i (by omega) (by omega)
      (fun j hj1 hj2 => hpre j hj2) s b ho hs429
    constructor
    · intro hs
      constructor
      · simp [fetch_book, this, hs]
      · simp [fetch_book_attempts, this]
    · intro hs
      constructor
      · simp [fetch_book, this, hs]
      · simp [fetch_book_attempts, this]

/-- Witness for the amended C2: an oracle answering 429 on every attempt
exhausts all 3 attempts and yields the empty mapping, and an oracle
answering 200 at once returns its body after one attempt. -/
theorem fetch_book_retry_characterization_witness :
    (fetch_book (fun _ => .response 429 emptyBook) = emptyBook ∧
     fetch_book_attempts (fun _ => .response 429 emptyBook) = 3) ∧
    (fetch_book (fun _ => .response 200 C2good) = C2good ∧
     fetch_book_attempts (fun _ => .response 200 C2good) = 1) :=
  ⟨(fetch_book_retry_characterization (fun _ => .response 429 emptyBook)).1
     (fun j _ => rfl),
   ((fetch_book_retry_characterization (fun _ => .response 200 C2good)).2
     0 (by decide) (fun j hj => absurd hj (Nat.not_lt_zero j)) 200 C2good rfl
     (by decide)).1 rfl⟩

/-- Raw market entry inside an event, as consumed by `discover_markets`
(discovery.py:60-75).  `clobTokenIds` and `outcomes` carry the result of
`json.loads` on the respective field followed by the `isinstance(_, list)`
check and per-element `str(...)`: `some xs` when the field is a JSON string
decoding to a JSON array (elements stringified), `none` when the field is
missing-with-unparseable-default, undecodable, or not an array.  Both
failure modes make the market silently skipped, so they are collapsed. -/
structure RawMarket where
  market_slug : Option String
  clobTokenIds : Option (List String)
  outcomes : Option (List String)
deriving DecidableEq

/-- Event object of the discovery listing endpoint. -/
structure DiscEvent where
  title : Option String
  slug : Option String
  markets : List RawMarket
deriving DecidableEq

/-- Normalized market record appended to `discovered_markets`
(discovery.py:106-117). -/
structure MarketInfo where
  title : Option String
  slug : Option String
  market_slug : Option String
  url : String
  yes_token_id : String
  no_token_id : String
  yes_outcome : String
  no_outcome : String
deriving DecidableEq

/-- Interpolation of a possibly-missing string into an f-string: Python
renders `None` as the text "None". -/
def optStr : Option String → String
  | some s => s
  | none => "None"

/-- Python's `str.lower()` as used by the yes/no heuristic: lower-case every
character (the standard library's `String.toLower` computes the same string;
this spelling maps over the underlying character list so that it evaluates
inside the kernel). -/
def strLower (s : String) : String := ⟨s.data.map Char.toLower⟩

/-- Embedding of the per-market normalization of `discover_markets`
(discovery.py:60-117): accept only markets whose `clobTokenIds` and
`outcomes` both decode to arrays of length exactly 2; assign yes/no token
ids by the case-insensitive "yes" heuristic; the label conditionals are
transcribed verbatim from the source (both branches of each yield the same
positional outcome string). -/
def parseMarket (event : DiscEvent) (m : RawMarket) : Option MarketInfo :=
  match m.clobTokenIds, m.outcomes with
  | some clob_token_ids, some outcomes =>
    match clob_token_ids, outcomes with
    | [token_0, token_1], [outcome_0, outcome_1] =>
      let yn : String × String :=
        if strLower outcome_0 = "yes" then (token_0, token_1)
        else if strLower outcome_1 = "yes" then (token_1, token_0)
        else (token_0, token_1)
      some ⟨event.title, event.slug, m.market_slug,
            "https://probable.markets/event/" ++ optStr event.slug,
            yn.1, yn.2,
            (if strLower outcome_0 = "yes" then outcome_0 else outcome_0),
            (if strLower outcome_1 = "no" then outcome_1 else outcome_1)⟩
    | _, _ => none
  | _, _ => none

/-- All markets of one event accepted by the inner `for market in
event_markets` loop (which has no `max_events` check of its own). -/
def acceptedMarkets (e : DiscEvent) : List MarketInfo :=
  e.markets.filterMap (parseMarket e)

/-- Result of fetching one page: `Except.error` models any exception raised
by the request/JSON decoding (`except` clause: discovery aborts and keeps
what it has), `Except.ok` a decoded list of events. -/
abbrev PageResult := Except Unit (List DiscEvent)

/-- Page size used by discovery (discovery.py:8). -/
def LIMIT : Nat := 100

/-- Truthiness test `if max_events and len(discovered_markets) >=
max_events` (discovery.py:29, 55): `None` and `0` are falsy, so the bound
only fires for a non-zero `max_events`. -/
def boundReached (maxE : Option Nat) (count : Nat) : Bool :=
  match maxE with
  | none => false
  | some n => if n = 0 then false else decide (n ≤ count)

/-- Embedding of the `for event in events` loop (discovery.py:54-119): each
event is preceded by the bound check; an event's accepted markets are
appended as a block. -/
def processEvents (maxE : Option Nat) : List DiscEvent → List MarketInfo → List MarketInfo
  | [], acc => acc
  | e :: es, acc =>
    if boundReached maxE acc.length then acc
    else processEvents maxE es (acc ++ acceptedMarkets e)

/-- Embedding of the `while True` pagination loop of `discover_markets`
(discovery.py:27-130), driven by the list of successive page results (entry
k models the response at offset k·LIMIT; the loop never outlives this list
because a missing response can only be modelled as a transport failure):
bound check, fetch (errors break with the accumulator), empty-page break,
event processing, and short-page break. -/
def discoverLoop (maxE : Option Nat) : List PageResult → List MarketInfo → List MarketInfo
  | [], acc => acc
  | p :: rest, acc =>
    if boundReached maxE acc.length then acc
    else
      match p with
      | .error _ => acc
      | .ok events =>
        if events.isEmpty then acc
        else
          let acc2 := processEvents maxE events acc
          if events.length < LIMIT then acc2
          else discoverLoop maxE rest acc2

/-- Embedding of `DiscoveryService.discover_markets` (discovery.py:18-133). -/
def discover_markets (pages : List PageResult) (maxE : Option Nat) : List MarketInfo :=
  discoverLoop maxE pages []

/-- First valid market of the C3 counterexample event. -/
def C3m1 : RawMarket := ⟨some "m1", some ["t0", "t1"], some ["Yes", "No"]⟩

/-- Second valid market of the C3 counterexample event. -/
def C3m2 : RawMarket := ⟨some "m2", some ["t2", "t3"], some ["Yes", "No"]⟩

/-- An event carrying two valid markets. -/
def C3ev : DiscEvent := ⟨some "T", some "s", [C3m1, C3m2]⟩

/-- Counterexample to claim C3 as stated: with `max_events = 1` and a single
page holding one event with two accepted markets, `discover_markets` returns
2 markets — the bound is only re-checked between events, not between the
markets of one event, so collection does not stop the moment the count
reaches `max_events`. -/
theorem discover_markets_exceeds_bound :
    (discover_markets [Except.ok [C3ev]] (some 1)).length = 2 ∧ (1 : Nat) < 2 :=
  ⟨rfl, by decide⟩

/-- A false bound check with a positive bound means the count is below it. -/
theorem boundReached_false_lt {n count : Nat} (hn : 0 < n)
    (h : boundReached (some n) count = false) : count < n := by
  simp only [boundReached] at h
  rw [if_neg (by omega : ¬ n = 0)] at h
  have := of_decide_eq_false h
  omega

/-- Event processing keeps the accumulator length below `n - 1 + k` when no
event contributes more than `k` accepted markets. -/
theorem processEvents_length_le {n k : Nat} (hn : 0 < n) :
    ∀ (evs : List DiscEvent) (acc : List MarketInfo),
      (∀ e ∈ evs, (acceptedMarkets e).length ≤ k) →
      acc.length ≤ n - 1 + k →
      (processEvents (some n) evs acc).length ≤ n - 1 + k := by
  intro evs
  induction evs with
  | nil => intro acc _ hacc; exact hacc
  | cons e es ih =>
    intro acc hk hacc
    simp only [processEvents]
    by_cases hb : boundReached (some n) acc.length = true
    · rw [if_pos hb]; exact hacc
    · rw [if_neg hb]
      have hlt : acc.length < n :=
        boundReached_false_lt hn (Bool.eq_false_iff.2 hb)
      refine ih (acc ++ acceptedMarkets e)
        (fun x hx => hk x (List.mem_cons_of_mem e hx)) ?_
      have he : (acceptedMarkets e).length ≤ k :=
        hk e (List.mem_cons_self e es)
      rw [List.length_append]
      omega

/-- Page loop version of the length bound. -/
theorem discoverLoop_length_le {n k : Nat} (hn : 0 < n) :
    ∀ (pages : List PageResult) (acc : List MarketInfo),
      (∀ evs, Except.ok evs ∈ pages → ∀ e ∈ evs, (acceptedMarkets e).length ≤ k) →
      acc.length ≤ n - 1 + k →
      (discoverLoop (some n) pages acc).length ≤ n - 1 + k := by
  intro pages
  induction pages with
  | nil => intro acc _ hacc; exact hacc
  | cons p rest ih =>
    intro acc hk hacc
    simp only [discoverLoop]
    by_cases hb : boundReached (some n) acc.length = true
    · rw [if_pos hb]; exact hacc
    · rw [if_neg hb]
      cases p with
      | error e => exact hacc
      | ok events =>
        dsimp only
        by_cases hne : events.isEmpty = true
        · rw [if_pos hne]; exact hacc
        · rw [if_neg hne]
          have hpe : (processEvents (some n) events acc).length ≤ n - 1 + k :=
            processEvents_length_le hn events acc
              (fun e he => hk events (List.mem_cons_self _ _) e he) hacc
          by_cases hsh : events.length < LIMIT
          · rw [if_pos hsh]; exact hpe
          · rw [if_neg hsh]
            exact ih (processEvents (some n) events acc)
              (fun evs hm e he => hk evs (List.mem_cons_of_mem _ hm) e he) hpe

/-- Claim C3 as amended: for a positive `max_events` the bound on collected
markets is checked before each page and before each event within a page, so
collection stops at the first event boundary after the count reaches
`max_events`; all accepted markets of an event are appended as a block, so
the result can overshoot `max_events` by up to one event's worth of markets:
if every event contributes at most `k` accepted markets, the result holds at
most `max_events - 1 + k` markets (so at most `max_events` when every event
has at most one accepted market). -/
theorem discover_markets_bound_amended (pages : List PageResult) (n k : Nat)
    (hn : 0 < n)
    (hk : ∀ evs, Except.ok evs ∈ pages → ∀ e ∈ evs, (acceptedMarkets e).length ≤ k) :
    (discover_markets pages (some n)).length ≤ n - 1 + k :=
  discoverLoop_length_le hn pages [] hk (by simp)

/-- Witness for the amended C3: the counterexample page, with `max_events =
1` and per-event market count 2, stays within the amended bound 1 - 1 + 2. -/
theorem discover_markets_bound_amended_witness :
    (discover_markets [Except.ok [C3ev]] (some 1)).length ≤ 2 :=
  discover_markets_bound_amended [Except.ok [C3ev]] 1 2 (by decide)
    (by
      intro evs hm e he
      simp only [List.mem_singleton, Except.ok.injEq] at hm
      subst hm
      simp only [List.mem_singleton] at he
      subst he
      decide)

/-- Raw market of the C4 counterexample: tokens ["A", "B"], outcomes
["No", "Yes"]. -/
def C4m : RawMarket := ⟨some "ms", some ["A", "B"], some ["No", "Yes"]⟩

/-- Event wrapping the C4 counterexample market. -/
def C4ev : DiscEvent := ⟨some "T", some "s", [C4m]⟩

/-- Counterexample to claim C4 as stated: for outcomes ["No", "Yes"] with
tokens [A, B] the token assignment follows the "yes" index (yes = B,
no = A), but the outcome labels do not follow it: the code stores the
positional `outcomes[0]` as the yes label and `outcomes[1]` as the no
label, so the yes label is "No", not "Yes". -/
theorem yes_label_counterexample :
    (parseMarket C4ev C4m).map
        (fun mi => (mi.yes_token_id, mi.no_token_id, mi.yes_outcome, mi.no_outcome)) =
      some ("B", "A", "No", "Yes") ∧ ("No" : String) ≠ "Yes" :=
  ⟨rfl, by decide⟩

/-- Claim C4 as amended: for every accepted market, if an outcome string
case-insensitively equals "yes", that index's token becomes `yes_token_id`
and the other becomes `no_token_id` (index 0 winning when both match), and
if neither matches, index 0 becomes `yes_token_id` and index 1
`no_token_id`; the outcome labels, however, are always positional: the yes
label is `outcomes[0]` and the no label is `outcomes[1]`, whatever the
token assignment. -/
theorem yes_no_assignment_positional_labels (ev : DiscEvent) (m : RawMarket)
    (t0 t1 o0 o1 : String)
    (hc : m.clobTokenIds = some [t0, t1]) (ho : m.outcomes = some [o0, o1]) :
    ∃ mi, parseMarket ev m = some mi ∧
      mi.yes_outcome = o0 ∧ mi.no_outcome = o1 ∧
      (strLower o0 = "yes" → mi.yes_token_id = t0 ∧ mi.no_token_id = t1) ∧
      (strLower o0 ≠ "yes" → strLower o1 = "yes" →
        mi.yes_token_id = t1 ∧ mi.no_token_id = t0) ∧
      (strLower o0 ≠ "yes" → strLower o1 ≠ "yes" →
        mi.yes_token_id = t0 ∧ mi.no_token_id = t1) := by
  simp only [parseMarket, hc, ho]
  refine ⟨_, rfl, ?_, ?_, ?_, ?_, ?_⟩
  · simp
  · simp
  · intro h0
    simp [h0]
  · intro h0 h1
    simp [h0, h1]
  · intro h0 h1
    simp [h0, h1]

/-- Witness for the amended C4, at the spec's generic-market example:
outcomes ["Democrat", "Republican"] (neither "yes") with tokens ["A", "B"]
yield yes token "A", no token "B" and the original labels. -/
theorem yes_no_assignment_positional_labels_witness :
    ∃ mi, parseMarket ⟨some "T", some "s", [⟨some "g", some ["A", "B"],
        some ["Democrat", "Republican"]⟩]⟩
        ⟨some "g", some ["A", "B"], some ["Democrat", "Republican"]⟩ = some mi ∧
      mi.yes_outcome = "Democrat" ∧ mi.no_outcome = "Republican" ∧
      mi.yes_token_id = "A" ∧ mi.no_token_id = "B" := by
  obtain ⟨mi, hmi, hy, hn, _, _, hno⟩ :=
    yes_no_assignment_positional_labels
      ⟨some "T", some "s", [⟨some "g", some ["A", "B"],
        some ["Democrat", "Republican"]⟩]⟩
      ⟨some "g", some ["A", "B"], some ["Democrat", "Republican"]⟩
      "A" "B" "Democrat" "Republican" rfl rfl
  obtain ⟨hyt, hnt⟩ := hno (by decide) (by decide)
  exact ⟨mi, hmi, hy, hn, hyt, hnt⟩

/-- Claim C9: `max_events = 0` is falsy in the Python truthiness test, so
discovery with `max_events = 0` behaves exactly as discovery with no bound:
the collected-market bound never fires and pagination is unbounded. -/
theorem max_events_zero_unbounded (pages : List PageResult) :
    discover_markets pages (some 0) = discover_markets pages none := by
  suffices h : ∀ (ps : List PageResult) (acc : List MarketInfo),
      discoverLoop (some 0) ps acc = discoverLoop none ps acc from h pages []
  have hpe : ∀ (evs : List DiscEvent) (acc : List MarketInfo),
      processEvents (some 0) evs acc = processEvents none evs acc := by
    intro evs
    induction evs with
    | nil => intro acc; rfl
    | cons e es ih =>
      intro acc
      simp only [processEvents]
      rw [show boundReached (some 0) acc.length = false from rfl,
        show boundReached none acc.length = false from rfl]
      simp only [Bool.false_eq_true, if_false]
      exact ih _
  intro ps
  induction ps with
  | nil => intro acc; rfl
  | cons p rest ih =>
    intro acc
    simp only [discoverLoop]
    rw [show boundReached (some 0) acc.length = false from rfl,
      show boundReached none acc.length = false from rfl]
    simp only [Bool.false_eq_true, if_false]
    cases p with
    | error e => rfl
    | ok events =>
      dsimp only
      rw [hpe events acc]
      by_cases hne : events.isEmpty = true
      · rw [if_pos hne, if_pos hne]
      · rw [if_neg hne, if_neg hne]
        by_cases hsh : events.length < LIMIT
        · rw [if_pos hsh, if_pos hsh]
        · rw [if_neg hsh, if_neg hsh]
          exact ih _

/-- Market record as consumed by `process_market` (probable_orderbook.py:
401-460): each field is read with `.get`, so any of them can be absent. -/
structure Market where
  title : Option String
  url : Option String
  market_slug : Option String
  yes_outcome : Option String
  no_outcome : Option String
  yes_token_id : Option String
  no_token_id : Option String
deriving DecidableEq

/-- Python truthiness of `not x` for an optional string: true when the field
is missing or the empty string. -/
def falsyStr : Option String → Bool
  | none => true
  | some s => s.isEmpty

/-- Python `x or default` for an optional string field. -/
def orDefault (o : Option String) (d : String) : String :=
  match o with
  | some s => if s.isEmpty then d else s
  | none => d

/-- Per-market metrics record built by `process_market`
(probable_orderbook.py:443-460).  The wall-clock `timestamp` field is not
modelled; every numeric stays a `ℚ` (the source converts to `float` for
serialization only). -/
structure Metrics where
  title : Option String
  url : Option String
  market_slug : String
  yes_outcome : Option String
  no_outcome : Option String
  yes_ask : Option ℚ
  no_ask : Option ℚ
  sum_flag : Option ℚ
  yes_ask_notional_usd : Option ℚ
  no_ask_notional_usd : Option ℚ
  both_ask_notional_usd : Option ℚ
  yes_debug_size : Option ℚ
  no_debug_size : Option ℚ
  yes_raw_entries : List RawEntry
  no_raw_entries : List RawEntry
deriving DecidableEq

/-- Embedding of `process_market` (probable_orderbook.py:401-460): `fetched`
maps a token id to the book its (awaited) `fetch_book` call returns — the
two fetches run concurrently but each owns its own result, so their joint
outcome is just this pair of lookups.  Tokens that are missing or empty are
falsy and abort with `None`; every other absence propagates as `None`. -/
def process_market (fetched : String → Book) (m : Market) : Option Metrics :=
  if falsyStr m.yes_token_id || falsyStr m.no_token_id then none
  else
    let yes_id := m.yes_token_id.getD ""
    let no_id := m.no_token_id.getD ""
    let book_yes := fetched yes_id
    let book_no := fetched no_id
    let yes_details := get_best_ask_details book_yes
    let no_details := get_best_ask_details book_no
    let yes_ask := yes_details.map (fun d => d.1)
    let no_ask := no_details.map (fun d => d.1)
    let yes_ask_size := yes_details.map (fun d => d.2.1)
    let no_ask_size := no_details.map (fun d => d.2.1)
    let yes_raw := match yes_details with | some d => d.2.2 | none => []
    let no_raw := match no_details with | some d => d.2.2 | none => []
    let yes_ask_notional := match yes_ask, yes_ask_size with
      | some p, some s => some (p * s)
      | _, _ => none
    let no_ask_notional := match no_ask, no_ask_size with
      | some p, some s => some (p * s)
      | _, _ => none
    let sum_flag := match yes_ask, no_ask with
      | some a, some b => some (a + b)
      | _, _ => none
    let both_ask_notional := match yes_ask, no_ask with
      | some _, some _ =>
        (match yes_ask_notional, no_ask_notional with
         | some a, some b => some (a + b)
         | _, _ => none)
      | _, _ => none
    some ⟨m.title, m.url, orDefault m.market_slug "unknown-slug",
      m.yes_outcome, m.no_outcome, yes_ask, no_ask, sum_flag,
      yes_ask_notional, no_ask_notional, both_ask_notional,
      yes_ask_size, no_ask_size, yes_raw, no_raw⟩

/-- Claim C5: `process_market` returns absent if either token id is missing;
otherwise it returns a metrics record in which `sum_flag` is defined iff
both best-ask prices are defined (and then equals their sum), the notional
fields are defined exactly when the corresponding level is present, the
combined notional is defined exactly when both notionals are, and absent
values propagate as absent, never replaced by a default. -/
theorem process_market_absent_propagation (fetched : String → Book) (m : Market) :
    ((falsyStr m.yes_token_id = true ∨ falsyStr m.no_token_id = true) →
      process_market fetched m = none) ∧
    (∀ mm, process_market fetched m = some mm →
      ((mm.sum_flag.isSome = true ↔
          (mm.yes_ask.isSome = true ∧ mm.no_ask.isSome = true)) ∧
       (∀ a b, mm.yes_ask = some a → mm.no_ask = some b →
          mm.sum_flag = some (a + b)) ∧
       (mm.yes_ask_notional_usd.isSome = true ↔ mm.yes_ask.isSome = true) ∧
       (mm.no_ask_notional_usd.isSome = true ↔ mm.no_ask.isSome = true) ∧
       (mm.both_ask_notional_usd.isSome = true ↔
          (mm.yes_ask_notional_usd.isSome = true ∧
           mm.no_ask_notional_usd.isSome = true)))) := by
  constructor
  · intro h
    have hb : (falsyStr m.yes_token_id || falsyStr m.no_token_id) = true := by
      rcases h with h | h <;> simp [h]
    simp [process_market, hb]
  · intro mm hmm
    by_cases hb : (falsyStr m.yes_token_id || falsyStr m.no_token_id) = true
    · simp [process_market, hb] at hmm
    · rw [process_market, if_neg hb] at hmm
      simp only [Option.some.injEq] at hmm
      subst hmm
      cases hyes : get_best_ask_details (fetched (m.yes_token_id.getD "")) with
      | none =>
        cases hno : get_best_ask_details (fetched (m.no_token_id.getD "")) with
        | none => simp [hyes, hno]
        | some dn => simp [hyes, hno]
      | some dy =>
        cases hno : get_best_ask_details (fetched (m.no_token_id.getD "")) with
        | none => simp [hyes, hno]
        | some dn =>
          refine ⟨by simp [hyes, hno], ?_, by simp [hyes, hno], by simp [hyes, hno],
            by simp [hyes, hno]⟩
          intro a b ha hb2
          simp only [hyes, hno] at ha hb2 ⊢
          simp only [Option.map_some', Option.some.injEq] at ha hb2 ⊢
          rw [← ha, ← hb2]

/-- Market with both token ids present, used by the C5 witness. -/
def C5market : Market :=
  ⟨some "T", some "u", some "ms", some "Yes", some "No", some "ytok", some "ntok"⟩

/-- Market with a missing yes token id, used by the C5 witness. -/
def C5missing : Market :=
  ⟨some "T", some "u", some "ms", some "Yes", some "No", none, some "ntok"⟩

/-- Metrics record produced for `C5market` when every fetch returns the
empty mapping: every numeric field is absent. -/
def C5mm : Metrics :=
  ⟨some "T", some "u", "ms", some "Yes", some "No",
   none, none, none, none, none, none, none, none, [], []⟩

/-- Witness for C5: a missing token id gives `None`, and a market whose
fetches both return the empty mapping yields a record with `sum_flag`
absent together with both asks. -/
theorem process_market_absent_propagation_witness :
    process_market (fun _ => emptyBook) C5missing = none ∧
    process_market (fun _ => emptyBook) C5market = some C5mm ∧
    (C5mm.sum_flag.isSome = true ↔
      (C5mm.yes_ask.isSome = true ∧ C5mm.no_ask.isSome = true)) :=
  ⟨(process_market_absent_propagation (fun _ => emptyBook) C5missing).1
     (Or.inl rfl),
   rfl,
   ((process_market_absent_propagation (fun _ => emptyBook) C5market).2
     C5mm rfl).1⟩

/-- Key used by `min(valid_markets, key=lambda x: x['sum_flag'])`; every
element of the filtered list has a defined `sum_flag`, so the default is
never consulted. -/
def sumKey (r : Metrics) : ℚ := r.sum_flag.getD 0

/-- One step of CPython's `min`: the running minimum is replaced only when
the new element's key is strictly smaller, so the earliest minimum wins. -/
def pyMinStep (acc y : Metrics) : Metrics :=
  if sumKey y < sumKey acc then y else acc

/-- Embedding of the best-market selection of `run_fetcher`
(probable_orderbook.py:493-496): filter to results with a defined
`sum_flag`, then `min` by `sum_flag` (or `None` when the filter is empty). -/
def best_market_of (results : List Metrics) : Option Metrics :=
  match results.filter (fun r => r.sum_flag.isSome) with
  | [] => none
  | x :: xs => some (xs.foldl pyMinStep x)

/-- The fold computing `min` returns an element splitting the list into a
strictly-greater prefix and a suffix, and is a global minimum. -/
theorem pyMin_spec : ∀ (xs : List Metrics) (x : Metrics),
    ∃ pre post,
      x :: xs = pre ++ (xs.foldl pyMinStep x) :: post ∧
      (∀ r ∈ x :: xs, sumKey (xs.foldl pyMinStep x) ≤ sumKey r) ∧
      (∀ r ∈ pre, sumKey (xs.foldl pyMinStep x) < sumKey r) := by
  intro xs
  induction xs with
  | nil =>
    intro x
    exact ⟨[], [], rfl, by simp, by simp⟩
  | cons y ys ih =>
    intro x
    rw [List.foldl_cons]
    by_cases hlt : sumKey y < sumKey x
    · have hstep : pyMinStep x y = y := by simp [pyMinStep, hlt]
      rw [hstep]
      obtain ⟨pre, post, hdec, hmin, hpre⟩ := ih y
      have hby : sumKey (ys.foldl pyMinStep y) ≤ sumKey y :=
        hmin y (List.mem_cons_self _ _)
      refine ⟨x :: pre, post, ?_, ?_, ?_⟩
      · rw [List.cons_append, ← hdec]
      · intro r hr
        rcases List.mem_cons.1 hr with rfl | hr'
        · exact le_of_lt (lt_of_le_of_lt hby hlt)
        · exact hmin r hr'
      · intro r hr
        rcases List.mem_cons.1 hr with rfl | hr'
        · exact lt_of_le_of_lt hby hlt
        · exact hpre r hr'
    · have hstep : pyMinStep x y = x := by simp [pyMinStep, hlt]
      rw [hstep]
      obtain ⟨pre, post, hdec, hmin, hpre⟩ := ih x
      have hxy : sumKey x ≤ sumKey y := le_of_not_lt hlt
      have hbx : sumKey (ys.foldl pyMinStep x) ≤ sumKey x :=
        hmin x (List.mem_cons_self _ _)
      cases pre with
      | nil =>
        simp only [List.nil_append] at hdec
        injection hdec with hb hpost
        refine ⟨[], y :: post, ?_, ?_, by simp⟩
        · rw [List.nil_append, ← hb, hpost]
        · intro r hr
          rcases List.mem_cons.1 hr with rfl | hr'
          · exact hbx
          · rcases List.mem_cons.1 hr' with rfl | hr''
            · exact le_trans hbx hxy
            · exact hmin r (List.mem_cons_of_mem x hr'')
      | cons p pre' =>
        simp only [List.cons_append] at hdec
        injection hdec with hp hys
        have hbp : sumKey (ys.foldl pyMinStep x) < sumKey p :=
          hpre p (List.mem_cons_self _ _)
        have hbxlt : sumKey (ys.foldl pyMinStep x) < sumKey x := hp ▸ hbp
        refine ⟨x :: y :: pre', post, ?_, ?_, ?_⟩
        · simp only [List.cons_append]
          conv_lhs => rw [hys]
        · intro r hr
          rcases List.mem_cons.1 hr with rfl | hr'
          · exact hbx
          · rcases List.mem_cons.1 hr' with rfl | hr''
            · exact le_trans hbx hxy
            · exact hmin r (List.mem_cons_of_mem x hr'')
        · intro r hr
          rcases List.mem_cons.1 hr with rfl | hr'
          · exact hbxlt
          · rcases List.mem_cons.1 hr' with rfl | hr''
            · exact lt_of_lt_of_le hbxlt hxy
            · exact hpre r (List.mem_cons_of_mem p hr'')

/-- Claim C7: the cycle's best opportunity is found by filtering to results
with a defined `sum_flag` and taking the minimum by `sum_flag`, ties broken
by input order (the first minimal element wins); it is undefined exactly
when no result has a defined `sum_flag`. -/
theorem best_opportunity_min_first (results : List Metrics) :
    (best_market_of results = none ↔
      results.filter (fun r => r.sum_flag.isSome) = []) ∧
    (∀ b, best_market_of results = some b →
      ∃ pre post,
        results.filter (fun r => r.sum_flag.isSome) = pre ++ b :: post ∧
        b.sum_flag.isSome = true ∧
        (∀ r ∈ results.filter (fun r => r.sum_flag.isSome), sumKey b ≤ sumKey r) ∧
        (∀ r ∈ pre, sumKey b < sumKey r)) := by
  constructor
  · simp only [best_market_of]
    cases hv : results.filter (fun r => r.sum_flag.isSome) with
    | nil => simp
    | cons x xs => simp
  · intro b hb
    simp only [best_market_of] at hb
    cases hv : results.filter (fun r => r.sum_flag.isSome) with
    | nil => rw [hv] at hb; simp at hb
    | cons x xs =>
      rw [hv] at hb
      simp only [Option.some.injEq] at hb
      subst hb
      obtain ⟨pre, post, hdec, hmin, hpre⟩ := pyMin_spec xs x
      refine ⟨pre, post, hdec, ?_, ?_, hpre⟩
      · have hbmem : xs.foldl pyMinStep x ∈ x :: xs := by
          rw [hdec]
          exact List.mem_append_right pre (List.mem_cons_self _ _)
        have hmem : xs.foldl pyMinStep x ∈
            results.filter (fun r => r.sum_flag.isSome) := by
          rw [hv]; exact hbmem
        exact (List.mem_filter.1 hmem).2
      · intro r hr
        exact hmin r hr

/-- A result with a defined `sum_flag` of 1. -/
def C7A : Metrics :=
  ⟨none, none, "a", none, none, none, none, some 1, none, none, none, none, none, [], []⟩

/-- A result with the smallest defined `sum_flag`, 1/2. -/
def C7B : Metrics :=
  ⟨none, none, "b", none, none, none, none, some (1/2), none, none, none, none, none, [], []⟩

/-- A result with no `sum_flag` (excluded by the filter). -/
def C7C : Metrics :=
  ⟨none, none, "c", none, none, none, none, none, none, none, none, none, none, [], []⟩

/-- Witness for C7: among one undefined and two defined results the one with
the smaller `sum_flag` is selected, preceded only by strictly larger ones. -/
theorem best_opportunity_min_first_witness :
    ∃ pre post,
      [C7C, C7A, C7B].filter (fun r => r.sum_flag.isSome) = pre ++ C7B :: post ∧
      C7B.sum_flag.isSome = true ∧
      (∀ r ∈ [C7C, C7A, C7B].filter (fun r => r.sum_flag.isSome), sumKey C7B ≤ sumKey r) ∧
      (∀ r ∈ pre, sumKey C7B < sumKey r) :=
  (best_opportunity_min_first [C7C, C7A, C7B]).2 C7B
    (by norm_num [best_market_of, C7A, C7B, C7C, pyMinStep, sumKey])

/-- Classification label computed for a sum value in `run_fetcher`
(probable_orderbook.py:527-530 and the two duplicated sites): start from
"EQ1", override with "GT1" above 1.0001 and with "LT1" below 0.9999. -/
def flagLabel (s : ℚ) : String :=
  if s > 1.0001 then "GT1"
  else if s < 0.9999 then "LT1"
  else "EQ1"

/-- Executable notional (probable_orderbook.py:520-523 and duplicates):
`min` of the two legs' notionals when both are defined, else the 0.0 it was
initialized with. -/
def executable_notional (y n : Option ℚ) : ℚ :=
  match y, n with
  | some a, some b => min a b
  | _, _ => 0

/-- Yes-side book of the spec's worked alert example: one ask at 0.42 with
size 100. -/
def C8yesBook : Book := ⟨none, some [⟨JField.num 0.42, JField.num 100⟩]⟩

/-- No-side book of the worked alert example: one ask at 0.55 with size 50. -/
def C8noBook : Book := ⟨none, some [⟨JField.num 0.55, JField.num 50⟩]⟩

/-- Fetch results for the worked alert example's two tokens. -/
def C8fetched : String → Book := fun tid =>
  if tid = "ytok" then C8yesBook else if tid = "ntok" then C8noBook else emptyBook

/-- Metrics record `process_market` produces for the worked alert example. -/
def C8mm : Metrics :=
  ⟨some "T", some "u", "ms", some "Yes", some "No",
   some 0.42, some 0.55, some 0.97, some 42, some 27.5, some 69.5,
   some 100, some 50,
   [⟨JField.num 0.42, JField.num 100⟩], [⟨JField.num 0.55, JField.num 50⟩]⟩

/-- Claim C8: the classification label is "GT1" above 1.0001, "LT1" below
0.9999 and "EQ1" in between; the executable notional is the minimum of the
two notionals when both are defined and 0 otherwise; and the worked
example — yes-ask 0.42 at size 100, no-ask 0.55 at size 50 — yields
`sum_flag` 0.97 classified "LT1" with executable notional 27.5. -/
theorem classification_and_executable :
    (∀ s : ℚ, 1.0001 < s → flagLabel s = "GT1") ∧
    (∀ s : ℚ, s < 0.9999 → flagLabel s = "LT1") ∧
    (∀ s : ℚ, ¬ 1.0001 < s → ¬ s < 0.9999 → flagLabel s = "EQ1") ∧
    (∀ a b : ℚ, executable_notional (some a) (some b) = min a b) ∧
    (∀ o : Option ℚ, executable_notional none o = 0 ∧ executable_notional o none = 0) ∧
    (∃ mm, process_market C8fetched C5market = some mm ∧
      mm.sum_flag = some 0.97 ∧ flagLabel 0.97 = "LT1" ∧
      mm.yes_ask_notional_usd = some 42 ∧ mm.no_ask_notional_usd = some 27.5 ∧
      executable_notional mm.yes_ask_notional_usd mm.no_ask_notional_usd = 27.5) := by
  refine ⟨?_, ?_, ?_, ?_, ?_, ?_⟩
  · intro s h
    simp only [flagLabel]
    rw [if_pos h]
  · intro s h
    have hc : (0.9999 : ℚ) < 1.0001 := by norm_num
    simp only [flagLabel]
    rw [if_neg (by push_neg; linarith), if_pos h]
  · intro s h1 h2
    simp only [flagLabel]
    rw [if_neg h1, if_neg h2]
  · intro a b; rfl
  · intro o
    constructor
    · cases o <;> rfl
    · cases o <;> rfl
  · refine ⟨C8mm, ?_, by norm_num [C8mm], by norm_num [flagLabel],
      by norm_num [C8mm], by norm_num [C8mm], ?_⟩
    · have hne : ¬ (("ntok" : String) = "ytok") := by decide
      have hy : ("ytok" : String).isEmpty = false := by decide
      have hn : ("ntok" : String).isEmpty = false := by decide
      have hms : ("ms" : String).isEmpty = false := by decide
      norm_num [process_market, C8fetched, C5market, C8mm, falsyStr, orDefault,
        get_best_ask_details, parseOrders, parseEntry, List.insertionSort,
        List.orderedInsert, askLe, C8yesBook, C8noBook, emptyBook,
        hne, hy, hn, hms]
    · norm_num [C8mm, executable_notional, min_def]

/-- Witness for C8: the classification at sample points in each band and the
executable notional at concrete defined/absent legs, all obtained from the
theorem. -/
theorem classification_and_executable_witness :
    flagLabel 2 = "GT1" ∧ flagLabel (1/2) = "LT1" ∧ flagLabel 1 = "EQ1" ∧
    executable_notional (some 3) (some 2) = min 3 2 ∧
    executable_notional none (some 3) = 0 :=
  ⟨classification_and_executable.1 2 (by norm_num),
   classification_and_executable.2.1 (1/2) (by norm_num),
   classification_and_executable.2.2.1 1 (by norm_num) (by norm_num),
   classification_and_executable.2.2.2.1 3 2,
   (classification_and_executable.2.2.2.2.1 (some 3)).1⟩
